import Mathlib

/-!
Verification development for the EnScript language-server core: the lexer
(`server/src/analysis/lexer/lexer.ts` with `rules.ts`), the recursive-descent
parser (`server/src/analysis/ast/parser.ts`, current revision — the second
half of that file), and the `Analyzer` symbol index (`graph.ts`, the revision
that checks document versions).

The embedding is shallow: document text is a `List Char`, JavaScript string
slices become clamped `drop`/`take`, the parser's mutable token cursor is a
state monad over `Nat`, thrown exceptions become `Except`, and the JS `Map`
used as the document cache becomes an association list with JS `Map`
insertion-order semantics.  Loops and recursion are driven by an explicit
fuel argument so that every definition is a computable structural recursion;
the fuel supplied at each entry point is large enough that the exhaustion
branch is unreachable on the inputs considered (each loop iteration consumes
at least one character or token).
-/

namespace EnScript

/-! ## Token model (`lexer/token.ts`) -/

/-- The `TokenKind` enumeration from `token.ts`. `Preproc` is the preprocessor-directive kind. -/
inductive TokenKind where
  | Identifier
  | Keyword
  | Number
  | String
  | Operator
  | Punctuation
  | Comment
  | Preproc
  | EOF
deriving DecidableEq, Repr

/-- The `Token` shape from `token.ts`; the JS field `end` is called `stop` here
(`end` is reserved in Lean). `value` is the text slice as a character list. -/
structure Token where
  kind : TokenKind
  value : List Char
  start : Nat
  stop : Nat
deriving DecidableEq, Repr

/-! ## Lexer (`lexer/lexer.ts`, rules from `rules.ts`) -/

/-- The closed keyword set of `rules.ts` (the standalone file; note that the
type primitives `int`, `void`, … are *not* keywords in this revision, they
lex as identifiers). -/
def keywords : List (List Char) :=
  ["class", "enum", "typedef", "using", "extends", "auto", "event",
   "modded", "proto", "native", "owned", "local",
   "ref", "reference", "return", "if", "else", "for", "while", "break",
   "continue", "out", "inout",
   "override", "private", "protected", "public", "static", "const",
   "notnull", "external", "volatile", "autoptr"].map String.data

/-- The punctuation string `'(){}[];:,.<>='` of `rules.ts`. -/
def punct : List Char := "()\x7b\x7d[];:,.<>=".data

/-- JS `/\s/` on the ASCII range (space, tab, line feed, carriage return,
vertical tab, form feed); the sources are ASCII. -/
def isSpace (c : Char) : Bool :=
  c = ' ' || c = '\t' || c = '\n' || c = '\r' || c = '\x0b' || c = '\x0c'

/-- JS `/\d/`. -/
def isDigit (c : Char) : Bool := '0' ≤ c && c ≤ '9'

/-- JS `/[0-9.eE+-]/`, the greedy number-literal character class. -/
def isNumChar (c : Char) : Bool :=
  isDigit c || c = '.' || c = 'e' || c = 'E' || c = '+' || c = '-'

/-- JS `/[_A-Za-z]/`. -/
def isIdentStart (c : Char) : Bool :=
  c = '_' || ('A' ≤ c && c ≤ 'Z') || ('a' ≤ c && c ≤ 'z')

/-- JS `/[_0-9A-Za-z]/`. -/
def isIdentChar (c : Char) : Bool := isIdentStart c || isDigit c

/-- Clamped JS `text.slice(start, stop)` on character lists. -/
def slice (text : List Char) (start stop : Nat) : List Char :=
  (text.drop start).take (stop - start)

/-- The scan `while (i < text.length && p(text[i])) i++` — returns the final `i`.
Fuel-driven; `text.length + 1` fuel always suffices. -/
def scanWhile (p : Char → Bool) (text : List Char) : Nat → Nat → Nat
  | 0, i => i
  | fuel + 1, i =>
    match text.get? i with
    | some c => if p c then scanWhile p text fuel (i + 1) else i
    | none => i

/-- The block-comment scan of `lexer.ts`:
`while (i + 1 < text.length && !(text[i] === '*' && text[i+1] === '/')) i++`,
returning the final `i` (the caller then adds 2, which may overshoot the end
of an unterminated comment, exactly as in the source). -/
def scanBlock (text : List Char) : Nat → Nat → Nat
  | 0, i => i
  | fuel + 1, i =>
    if i + 1 < text.length ∧ ¬(text.get? i = some '*' ∧ text.get? (i + 1) = some '/') then
      scanBlock text fuel (i + 1)
    else i

/-- The string-literal scan of `lexer.ts`:
`while (i < text.length && text[i] !== '"') { if (text[i] === '\\') i += 2; else i++; }`,
returning the final `i` (the caller then adds 1 for the closing quote, which
may overshoot on an unterminated literal, as in the source). -/
def scanStr (text : List Char) : Nat → Nat → Nat
  | 0, i => i
  | fuel + 1, i =>
    match text.get? i with
    | some c =>
      if c = '"' then i
      else if c = '\\' then scanStr text fuel (i + 2)
      else scanStr text fuel (i + 1)
    | none => i

/-- Stop characters of a line comment / preprocessor directive. -/
def notEol (c : Char) : Bool := ¬(c = '\n' ∨ c = '\r')

/-- The main loop of `lex` (`lexer.ts` lines 12–91), one constructor case per
branch, in source priority order.  Each iteration strictly advances `i`, so
fuel `text.length + 1` never runs out while `i < text.length`; the fuel-zero
case emits the same end-of-file token the loop exit does. -/
def lexLoop (text : List Char) : Nat → Nat → List Token
  | 0, i => [⟨.EOF, [], i, i⟩]
  | fuel + 1, i =>
    match text.get? i with
    | none => [⟨.EOF, [], i, i⟩]
    | some ch =>
      if isSpace ch then
        lexLoop text fuel (i + 1)
      else if ch = '/' ∧ text.get? (i + 1) = some '/' then
        let j := scanWhile notEol text (text.length + 1) (i + 2)
        ⟨.Comment, slice text i j, i, j⟩ :: lexLoop text fuel j
      else if ch = '/' ∧ text.get? (i + 1) = some '*' then
        let j := scanBlock text (text.length + 1) (i + 2) + 2
        ⟨.Comment, slice text i j, i, j⟩ :: lexLoop text fuel j
      else if ch = '#' then
        let j := scanWhile notEol text (text.length + 1) i
        ⟨.Preproc, slice text i j, i, j⟩ :: lexLoop text fuel j
      else if ch = '"' then
        let j := scanStr text (text.length + 1) (i + 1) + 1
        ⟨.String, slice text i j, i, j⟩ :: lexLoop text fuel j
      else if isDigit ch then
        let j := scanWhile isNumChar text (text.length + 1) i
        ⟨.Number, slice text i j, i, j⟩ :: lexLoop text fuel j
      else if isIdentStart ch then
        let j := scanWhile isIdentChar text (text.length + 1) i
        let value := slice text i j
        let kind := if value ∈ keywords then TokenKind.Keyword else TokenKind.Identifier
        ⟨kind, value, i, j⟩ :: lexLoop text fuel j
      else if ch ∈ punct then
        ⟨.Punctuation, [ch], i, i + 1⟩ :: lexLoop text fuel (i + 1)
      else
        ⟨.Operator, [ch], i, i + 1⟩ :: lexLoop text fuel (i + 1)

/-- Function `lex` from `lexer.ts`: scan from offset 0; the trailing `push(EOF, '', i)`
is the base case of `lexLoop`. -/
def lex (text : List Char) : List Token :=
  lexLoop text (text.length + 1) 0

/-! ## Positions (`vscode-languageserver-textdocument` helpers)

The parser stores LSP `Position` values computed by `doc.positionAt`; the
analyzer converts a cursor `Position` back with `doc.offsetAt`.  Both are the
standard `FullTextDocument` implementations (external collaborator library),
embedded here over `List Char`. -/

/-- LSP `Position`: zero-based line and character. -/
structure Pos where
  line : Nat
  character : Nat
deriving DecidableEq, Repr

/-- Offsets at which lines start, beyond the initial line: after each
`\r\n`, lone `\r` or lone `\n` (the `computeLineOffsets` scan). -/
def lineOffsetsAux : List Char → Nat → List Nat
  | [], _ => []
  | '\r' :: '\n' :: rest, i => (i + 2) :: lineOffsetsAux rest (i + 2)
  | '\r' :: rest, i => (i + 1) :: lineOffsetsAux rest (i + 1)
  | '\n' :: rest, i => (i + 1) :: lineOffsetsAux rest (i + 1)
  | _ :: rest, i => lineOffsetsAux rest (i + 1)

/-- All line-start offsets of a document (always begins with 0). -/
def lineOffsets (text : List Char) : List Nat :=
  0 :: lineOffsetsAux text 0

/-- External `TextDocument.positionAt`: clamp the offset into the document, pick the
last line starting at or before it. -/
def positionAt (text : List Char) (offset : Nat) : Pos :=
  let off := min offset text.length
  let before := (lineOffsets text).filter (fun s => decide (s ≤ off))
  ⟨before.length - 1, off - (before.getLast?.getD 0)⟩

/-- External `TextDocument.offsetAt`: line start plus character, clamped to the line. -/
def offsetAt (text : List Char) (p : Pos) : Nat :=
  let lo := lineOffsets text
  if p.line < lo.length then
    let lineOffset := lo.getD p.line 0
    if p.character = 0 then lineOffset
    else
      let nextLineOffset := if p.line + 1 < lo.length then lo.getD (p.line + 1) 0 else text.length
      min (lineOffset + p.character) nextLineOffset
  else text.length

/-! ## Documents -/

/-- The `(uri, version, text)` input unit (an LSP `TextDocument`'s observable
fields). -/
structure TextDoc where
  uri : String
  version : Nat
  text : List Char
deriving DecidableEq, Repr

/-! ## AST (`ast/parser.ts`, current revision) -/

/-- One entry of a `TypeNode.arrayDims` array: `number | string | undefined`
in the source — a numeric size, a symbolic identifier size, or absent
(empty brackets). -/
inductive ArrayDim where
  | num (n : Nat)
  | sym (s : List Char)
  | absent
deriving DecidableEq, Repr

/-- The `TypeNode` shape: `genericArgs` is `Option`al (absent means "not generic",
`some []` "generic with zero arguments"), `arrayDims` in declaration order. -/
inductive TypeNode where
  | mk (uri : String) (start stop : Pos) (identifier : List Char)
      (genericArgs : Option (List TypeNode)) (arrayDims : List ArrayDim)
      (modifiers : List (List Char))

def TypeNode.uri : TypeNode → String
  | .mk u _ _ _ _ _ _ => u

def TypeNode.start : TypeNode → Pos
  | .mk _ s _ _ _ _ _ => s

def TypeNode.stop : TypeNode → Pos
  | .mk _ _ e _ _ _ _ => e

def TypeNode.identifier : TypeNode → List Char
  | .mk _ _ _ i _ _ _ => i

def TypeNode.genericArgs : TypeNode → Option (List TypeNode)
  | .mk _ _ _ _ g _ _ => g

def TypeNode.arrayDims : TypeNode → List ArrayDim
  | .mk _ _ _ _ _ d _ => d

def TypeNode.modifiers : TypeNode → List (List Char)
  | .mk _ _ _ _ _ _ m => m

/-- The tagged union of named declarations (`SymbolNodeBase` variants).
Common fields come first: uri, name, tight name span, annotations (each an
argument list of literal texts), modifiers; the full declaration span last.

`enumMemberDecl` and the node-valued members of `enumDecl` are
*Modelled from the spec*: the parser revision imported by the analyzer
(`graph.ts` imports `EnumMemberDeclNode` and reads `name`/`nameStart`/
`nameEnd` of enum members) is not under `src/`; the spec's data model gives
`EnumDecl{base?, members: ordered list<EnumMemberDecl>}` with
`EnumMemberDecl` a name-only declaration.  (The stale `parser.ts` snapshot
under `src/` still stores enumerator names as plain strings.) -/
inductive SymbolNode where
  | classDecl (uri : String) (name : List Char) (nameStart nameEnd : Pos)
      (annotations : List (List (List Char))) (modifiers : List (List Char))
      (genericVars : Option (List (List Char))) (base : Option TypeNode)
      (members : List SymbolNode) (start stop : Pos)
  | enumDecl (uri : String) (name : List Char) (nameStart nameEnd : Pos)
      (annotations : List (List (List Char))) (modifiers : List (List Char))
      (base : Option (List Char)) (members : List SymbolNode) (start stop : Pos)
  | typedef (uri : String) (name : List Char) (nameStart nameEnd : Pos)
      (annotations : List (List (List Char))) (modifiers : List (List Char))
      (oldType : TypeNode) (start stop : Pos)
  | varDecl (uri : String) (name : List Char) (nameStart nameEnd : Pos)
      (annotations : List (List (List Char))) (modifiers : List (List Char))
      (type : TypeNode) (start stop : Pos)
  | functionDecl (uri : String) (name : List Char) (nameStart nameEnd : Pos)
      (annotations : List (List (List Char))) (modifiers : List (List Char))
      (parameters : List SymbolNode) (returnType : TypeNode)
      (locals : List SymbolNode) (start stop : Pos)
  | enumMemberDecl (uri : String) (name : List Char) (nameStart nameEnd : Pos)
      (annotations : List (List (List Char))) (modifiers : List (List Char))
      (start stop : Pos)

/-- The declaration's name (`node.name`). -/
def SymbolNode.name : SymbolNode → List Char
  | .classDecl _ n _ _ _ _ _ _ _ _ _ => n
  | .enumDecl _ n _ _ _ _ _ _ _ _ => n
  | .typedef _ n _ _ _ _ _ _ _ => n
  | .varDecl _ n _ _ _ _ _ _ _ => n
  | .functionDecl _ n _ _ _ _ _ _ _ _ _ => n
  | .enumMemberDecl _ n _ _ _ _ _ _ => n

/-- The `kind` discriminator string of the source's tagged union. -/
def SymbolNode.kindStr : SymbolNode → String
  | .classDecl .. => "ClassDecl"
  | .enumDecl .. => "EnumDecl"
  | .typedef .. => "Typedef"
  | .varDecl .. => "VarDecl"
  | .functionDecl .. => "FunctionDecl"
  | .enumMemberDecl .. => "EnumMemberDecl"

def SymbolNode.nameStart : SymbolNode → Pos
  | .classDecl _ _ s _ _ _ _ _ _ _ _ => s
  | .enumDecl _ _ s _ _ _ _ _ _ _ => s
  | .typedef _ _ s _ _ _ _ _ _ => s
  | .varDecl _ _ s _ _ _ _ _ _ => s
  | .functionDecl _ _ s _ _ _ _ _ _ _ _ => s
  | .enumMemberDecl _ _ s _ _ _ _ _ => s

def SymbolNode.nameEnd : SymbolNode → Pos
  | .classDecl _ _ _ e _ _ _ _ _ _ _ => e
  | .enumDecl _ _ _ e _ _ _ _ _ _ => e
  | .typedef _ _ _ e _ _ _ _ _ => e
  | .varDecl _ _ _ e _ _ _ _ _ => e
  | .functionDecl _ _ _ e _ _ _ _ _ _ _ => e
  | .enumMemberDecl _ _ _ e _ _ _ _ => e

def SymbolNode.start : SymbolNode → Pos
  | .classDecl _ _ _ _ _ _ _ _ _ s _ => s
  | .enumDecl _ _ _ _ _ _ _ _ s _ => s
  | .typedef _ _ _ _ _ _ _ s _ => s
  | .varDecl _ _ _ _ _ _ _ s _ => s
  | .functionDecl _ _ _ _ _ _ _ _ _ s _ => s
  | .enumMemberDecl _ _ _ _ _ _ s _ => s

def SymbolNode.stop : SymbolNode → Pos
  | .classDecl _ _ _ _ _ _ _ _ _ _ e => e
  | .enumDecl _ _ _ _ _ _ _ _ _ e => e
  | .typedef _ _ _ _ _ _ _ _ e => e
  | .varDecl _ _ _ _ _ _ _ _ e => e
  | .functionDecl _ _ _ _ _ _ _ _ _ _ e => e
  | .enumMemberDecl _ _ _ _ _ _ _ e => e

/-- Class members (empty for every other node kind). -/
def SymbolNode.classMembers : SymbolNode → List SymbolNode
  | .classDecl _ _ _ _ _ _ _ _ m _ _ => m
  | _ => []

/-- Enum members (empty for every other node kind). -/
def SymbolNode.enumMembers : SymbolNode → List SymbolNode
  | .enumDecl _ _ _ _ _ _ _ m _ _ => m
  | _ => []

/-- The optional base type of a class declaration. -/
def SymbolNode.baseType? : SymbolNode → Option TypeNode
  | .classDecl _ _ _ _ _ _ _ b _ _ _ => b
  | _ => none

/-- The declared type of a variable declaration. -/
def SymbolNode.varType? : SymbolNode → Option TypeNode
  | .varDecl _ _ _ _ _ _ t _ _ => some t
  | _ => none

/-- The return type of a function declaration. -/
def SymbolNode.returnType? : SymbolNode → Option TypeNode
  | .functionDecl _ _ _ _ _ _ _ r _ _ _ => some r
  | _ => none

/-- The parameter list of a function declaration. -/
def SymbolNode.params : SymbolNode → List SymbolNode
  | .functionDecl _ _ _ _ _ _ p _ _ _ _ => p
  | _ => []

/-- The locals list of a function declaration. -/
def SymbolNode.localsOf : SymbolNode → List SymbolNode
  | .functionDecl _ _ _ _ _ _ _ _ l _ _ => l
  | _ => []

/-- The `File` shape: top-level declarations plus the owning document's version. -/
structure File where
  body : List SymbolNode
  version : Nat

/-! ## Parser (`ast/parser.ts`, current revision)

The parser's mutable token cursor becomes `StateT Nat`; `throw new
ParseError(...)` becomes `Except.error (.parseError ...)`.  Reading past the
end of the token array (which in JS yields `undefined` and crashes with a
`TypeError` at the following property access) is modelled by
`Except.error .typeError`; the catch-all in the analyzer's `ensure` absorbs
both alike. -/

/-- The `ParseError` payload: URI plus 1-based line/column plus the expected-vs-found
message. -/
structure ParseError where
  uri : String
  line : Nat
  column : Nat
  msg : List Char
deriving DecidableEq, Repr

/-- A thrown JS exception: a positioned `ParseError`, or the `TypeError`
raised by dereferencing `undefined` past the end of the token array /
exhausting the (always sufficient) fuel. -/
inductive JsError where
  | parseError (e : ParseError)
  | typeError
deriving DecidableEq, Repr

/-- Parser monad: token cursor state plus thrown exceptions. -/
abbrev PM (α : Type) := StateT Nat (Except JsError) α

/-- Parser context: the document and its token stream. -/
structure PCtx where
  d : TextDoc
  toks : List Token

/-- The reverse mapping `TokenKind[t.kind]`, the TS enum reverse mapping used in error texts. -/
def kindName : TokenKind → List Char
  | .Identifier => "Identifier".data
  | .Keyword => "Keyword".data
  | .Number => "Number".data
  | .String => "String".data
  | .Operator => "Operator".data
  | .Punctuation => "Punctuation".data
  | .Comment => "Comment".data
  | .Preproc => "Preproc".data
  | .EOF => "EOF".data

/-- The cursor after `skipTrivia`: advance over `Comment`/`Preproc` tokens
while in bounds. -/
def skipPos (toks : List Token) : Nat → Nat → Nat
  | 0, pos => pos
  | fuel + 1, pos =>
    match toks.get? pos with
    | some t =>
      if t.kind = .Comment ∨ t.kind = .Preproc then skipPos toks fuel (pos + 1) else pos
    | none => pos

/-- Source `skipTrivia()`. -/
def skipTrivia (c : PCtx) : PM Unit := do
  let pos ← get
  set (skipPos c.toks (c.toks.length + 1) pos)

/-- Source `peek()`: skip trivia, look at the current token. -/
def peekT (c : PCtx) : PM Token := do
  skipTrivia c
  let pos ← get
  match c.toks.get? pos with
  | some t => pure t
  | none => throw .typeError

/-- Source `next()`: skip trivia, consume the current token. -/
def nextT (c : PCtx) : PM Token := do
  skipTrivia c
  let pos ← get
  set (pos + 1)
  match c.toks.get? pos with
  | some t => pure t
  | none => throw .typeError

/-- Source `throwErr(t, want)`: positioned failure at the token's start. -/
def throwErr {α : Type} (c : PCtx) (t : Token) (want : List Char) : PM α :=
  let p := positionAt c.d.text t.start
  throw (.parseError ⟨c.d.uri, p.line + 1, p.character + 1,
    "expected ".data ++ want ++ ", got '".data ++ t.value ++ "' (".data ++ kindName t.kind ++ ")".data⟩)

/-- Source `readTypeLike()`: exactly one identifier token (this revision rejects
keywords; the type primitives are identifiers per `rules.ts`). -/
def readTypeLike (c : PCtx) : PM Token := do
  let t ← peekT c
  if t.kind = .Identifier then nextT c
  else throwErr c t "type identifier".data

/-- Source `expect(val)`. -/
def expectVal (c : PCtx) (val : List Char) : PM Token := do
  let t ← peekT c
  if t.value ≠ val then throwErr c t ("'".data ++ val ++ "'".data)
  else nextT c

/-- Source `expectIdentifier()`, with the `~Foo` destructor-name special case. -/
def expectIdentifier (c : PCtx) : PM Token := do
  let t ← nextT c
  if t.kind = .Operator ∧ t.value = "~".data then do
    let p ← peekT c
    if p.kind = .Identifier then do
      let id ← nextT c
      pure ⟨.Identifier, '~' :: id.value, t.start, id.stop⟩
    else if t.kind ≠ .Identifier then throwErr c t "identifier".data
    else pure t
  else if t.kind ≠ .Identifier then throwErr c t "identifier".data
  else pure t

/-- The declaration-modifier keyword set of the current `parser.ts`. -/
def parserModifiers : List (List Char) :=
  ["override", "proto", "native", "modded", "owned", "ref", "reference",
   "public", "private", "protected", "static", "const", "out", "inout",
   "notnull", "external", "volatile", "local", "autoptr", "event"].map String.data

/-- Source `isModifier(t)`. -/
def isModifierTok (t : Token) : Prop :=
  t.kind = .Keyword ∧ t.value ∈ parserModifiers

instance (t : Token) : Decidable (isModifierTok t) := by
  unfold isModifierTok; infer_instance

/-- JS `parseInt` on a number-token value (which always starts with a digit):
the value of the leading digit run. -/
def jsParseInt (s : List Char) : Nat :=
  (s.takeWhile isDigit).foldl (fun a c => a * 10 + (c.toNat - '0'.toNat)) 0

/-- Argument loop of `expectAnnotation` (collect string/number literal
texts between the parentheses, skipping everything else). -/
def annotArgsLoop (c : PCtx) : Nat → List (List Char) → PM (List (List Char))
  | 0, _ => throw .typeError
  | fuel + 1, args => do
    let t ← peekT c
    if t.value = ")".data then pure args
    else do
      let args ←
        if t.kind = .String ∨ t.kind = .Number then do
          let x ← nextT c
          pure (args ++ [x.value])
        else do
          let _ ← nextT c
          pure args
      let t2 ← peekT c
      if t2.value = ",".data then do
        let _ ← nextT c
        annotArgsLoop c fuel args
      else annotArgsLoop c fuel args

/-- Source `expectAnnotation()`: `[Ident]` or `[Ident(arg, …)]`. -/
def expectAnnotation (c : PCtx) : PM (List (List Char)) := do
  let _ ← expectVal c "[".data
  let first ← expectIdentifier c
  let t ← peekT c
  let args ←
    if t.value = "(".data then do
      let _ ← expectVal c "(".data
      let args ← annotArgsLoop c (c.toks.length + 2) [first.value]
      let _ ← expectVal c ")".data
      pure args
    else pure [first.value]
  let _ ← expectVal c "]".data
  pure args

/-- Leading annotation groups of a declaration. -/
def annotationsLoop (c : PCtx) : Nat → List (List (List Char)) → PM (List (List (List Char)))
  | 0, _ => throw .typeError
  | fuel + 1, acc => do
    let t ← peekT c
    if t.value = "[".data then do
      let a ← expectAnnotation c
      annotationsLoop c fuel (acc ++ [a])
    else pure acc

/-- Leading modifier keywords of a declaration or type. -/
def modsLoop (c : PCtx) : Nat → List (List Char) → PM (List (List Char))
  | 0, _ => throw .typeError
  | fuel + 1, acc => do
    let t ← peekT c
    if isModifierTok t then do
      let x ← nextT c
      modsLoop c fuel (acc ++ [x.value])
    else pure acc

/-- Enumerator loop of the enum branch: one member per identifier token,
everything else skipped.  The member nodes are Modelled from the spec
(`EnumMemberDecl`, name-only declarations with a tight name span). -/
def enumMembersLoop (c : PCtx) : Nat → List SymbolNode → PM (List SymbolNode)
  | 0, _ => throw .typeError
  | fuel + 1, acc => do
    let t ← peekT c
    if t.value ≠ "\x7d".data ∧ t.kind ≠ .EOF then
      if t.kind = .Identifier then do
        let tok ← nextT c
        let s := positionAt c.d.text tok.start
        let e := positionAt c.d.text tok.stop
        enumMembersLoop c fuel
          (acc ++ [SymbolNode.enumMemberDecl c.d.uri tok.value s e [] [] s e])
      else do
        let _ ← nextT c
        enumMembersLoop c fuel acc
    else pure acc

/-- Balanced-brace skip of a function body (`{ … }`, starting at depth 1). -/
def bodySkipLoop (c : PCtx) : Nat → Nat → PM Unit
  | 0, _ => throw .typeError
  | fuel + 1, depth => do
    if 0 < depth then do
      let t ← peekT c
      if t.kind = .EOF then pure ()
      else do
        let tk ← nextT c
        if tk.value = "\x7b".data then bodySkipLoop c fuel (depth + 1)
        else if tk.value = "\x7d".data then bodySkipLoop c fuel (depth - 1)
        else bodySkipLoop c fuel depth
    else pure ()

/-- The default-value skip of `fastParamScan`: consume to the next `)` or `,`. -/
def paramSkipLoop (c : PCtx) : Nat → PM Unit
  | 0 => throw .typeError
  | fuel + 1 => do
    let t ← peekT c
    if t.kind ≠ .EOF ∧ t.value ≠ ")".data ∧ t.value ≠ ",".data then do
      let _ ← nextT c
      paramSkipLoop c fuel
    else pure ()

/-- Opening brackets of the initializer skip. -/
def openBrackets : List (List Char) := ["(", "[", "\x7b", "<"].map String.data

/-- Closing brackets of the initializer skip. -/
def closeBrackets : List (List Char) := [")", "]", "\x7d", ">"].map String.data

/-- Balanced-bracket skip of a nested initializer expression (depth starts
at 1, counting over `()[]{}<>`). -/
def initSkipInner (c : PCtx) : Nat → Nat → PM Unit
  | 0, _ => throw .typeError
  | fuel + 1, depth => do
    let t ← peekT c
    if t.kind ≠ .EOF ∧ 0 < depth then do
      let depth := if t.value ∈ openBrackets then depth + 1 else depth
      let depth := if t.value ∈ closeBrackets then depth - 1 else depth
      let _ ← nextT c
      initSkipInner c fuel depth
    else pure ()

/-- The `= initializer` scan-and-discard loop of the variable branch. -/
def initSkipLoop (c : PCtx) (inline : Bool) : Nat → PM Unit
  | 0 => throw .typeError
  | fuel + 1 => do
    let t ← peekT c
    if (inline ∧ t.value ≠ ",".data ∧ t.value ≠ ")".data) ∨
        (¬inline ∧ t.value ≠ ";".data) then do
      let curTok ← nextT c
      if curTok.value ∈ openBrackets then do
        initSkipInner c (c.toks.length + 2) 1
        initSkipLoop c inline fuel
      else do
        let negNum ←
          if curTok.value = "-".data then do
            let p ← peekT c
            pure (decide (p.kind = TokenKind.Number))
          else pure false
        if negNum then do
          let _ ← nextT c
          initSkipLoop c inline fuel
        else if curTok.kind ≠ .Keyword ∧ curTok.kind ≠ .Identifier ∧
            curTok.kind ≠ .Number ∧ curTok.kind ≠ .String ∧
            curTok.value ≠ ".".data ∧ curTok.value ≠ "+".data ∧ curTok.value ≠ "|".data then
          throwErr c curTok "initialization expression".data
        else initSkipLoop c inline fuel
    else pure ()

/-- Class-level generic parameter loop: `<Class T1, Class T2>`. -/
def genericVarsLoop (c : PCtx) : Nat → List (List Char) → PM (List (List Char))
  | 0, _ => throw .typeError
  | fuel + 1, acc => do
    let t ← peekT c
    if t.value ≠ ">".data ∧ t.kind ≠ .EOF then do
      let _ ← expectVal c "Class".data
      let id ← expectIdentifier c
      let t2 ← peekT c
      if t2.value = ",".data then do
        let _ ← nextT c
        genericVarsLoop c fuel (acc ++ [id.value])
      else genericVarsLoop c fuel (acc ++ [id.value])
    else pure acc

/-- Append one array dimension and extend the type's span (`arrayDims.push`
plus `node.end = …`). -/
def TypeNode.pushDim (n : TypeNode) (d : ArrayDim) (e : Pos) : TypeNode :=
  match n with
  | .mk u s _ i g dims m => .mk u s e i g (dims ++ [d]) m

/-- Source `parseArrayDims`: each `[`, an optional number or identifier size, `]`. -/
def parseArrayDimsLoop (c : PCtx) : Nat → TypeNode → PM TypeNode
  | 0, _ => throw .typeError
  | fuel + 1, node => do
    let t ← peekT c
    if t.value = "[".data then do
      let _ ← nextT c
      let p ← peekT c
      let size ←
        if p.kind = TokenKind.Number then do
          let x ← nextT c
          pure (ArrayDim.num (jsParseInt x.value))
        else if p.kind = TokenKind.Identifier then do
          let x ← nextT c
          pure (ArrayDim.sym x.value)
        else pure ArrayDim.absent
      let endTok ← expectVal c "]".data
      parseArrayDimsLoop c fuel (node.pushDim size (positionAt c.d.text endTok.stop))
    else pure node

mutual

/-- Source `parseType`: modifiers, identifier, optional generic argument list,
optional array dimensions. -/
def parseType (c : PCtx) : Nat → PM TypeNode
  | 0 => throw .typeError
  | fuel + 1 => do
    let mods ← modsLoop c (c.toks.length + 2) []
    let startTok ← readTypeLike c
    let t ← peekT c
    let node ←
      if t.value = "<".data then do
        let _ ← nextT c
        let args ← genericArgsLoop c fuel []
        let endTok ← expectVal c ">".data
        pure (TypeNode.mk c.d.uri (positionAt c.d.text startTok.start)
          (positionAt c.d.text endTok.stop) startTok.value (some args) [] mods)
      else
        pure (TypeNode.mk c.d.uri (positionAt c.d.text startTok.start)
          (positionAt c.d.text startTok.stop) startTok.value none [] mods)
    parseArrayDimsLoop c (c.toks.length + 2) node

/-- Generic-argument loop of `parseType`: `Name<Arg, Arg, …>`. -/
def genericArgsLoop (c : PCtx) : Nat → List TypeNode → PM (List TypeNode)
  | 0, _ => throw .typeError
  | fuel + 1, acc => do
    let t ← peekT c
    if t.value ≠ ">".data ∧ t.kind ≠ .EOF then do
      let a ← parseType c fuel
      let t2 ← peekT c
      if t2.value = ",".data then do
        let _ ← nextT c
        genericArgsLoop c fuel (acc ++ [a])
      else genericArgsLoop c fuel (acc ++ [a])
    else pure acc

end

/-- Source `parseTypeAndName`: a type, a name, and optionally a trailing
`name[dims]` — rejected with `"not another ["` when the type already
declared dimensions. -/
def parseTypeAndName (c : PCtx) (fuel : Nat) : PM (TypeNode × Token) := do
  let typeNode ← parseType c fuel
  let nameTok ← expectIdentifier c
  let t ← peekT c
  if t.value = "[".data then
    if typeNode.arrayDims.length ≠ 0 then throwErr c t "not another [".data
    else do
      let typeNode ← parseArrayDimsLoop c (c.toks.length + 2) typeNode
      pure (typeNode, nameTok)
  else pure (typeNode, nameTok)

mutual

/-- Source `parseDecl`: leading annotations and modifiers, then the keyword-anchored
class/enum/typedef branches, then function-or-variable. -/
def parseDecl (c : PCtx) : Nat → Bool → PM SymbolNode
  | 0, _ => throw .typeError
  | fuel + 1, inline => do
    let annotations ← annotationsLoop c (c.toks.length + 2) []
    let mods ← modsLoop c (c.toks.length + 2) []
    let t ← peekT c
    if t.value = "class".data then do
      let _ ← nextT c
      let nameTok ← expectIdentifier c
      let t2 ← peekT c
      let genericVars ←
        if t2.value = "<".data then do
          let _ ← nextT c
          let gv ← genericVarsLoop c (c.toks.length + 2) []
          let _ ← expectVal c ">".data
          pure (some gv)
        else pure none
      let t3 ← peekT c
      let base ←
        if t3.value = ":".data ∨ t3.value = "extends".data then do
          let _ ← nextT c
          let b ← parseType c (c.toks.length + 2)
          pure (some b)
        else pure (none : Option TypeNode)
      let _ ← expectVal c "\x7b".data
      let members ← classMembersLoop c fuel []
      let _ ← expectVal c "\x7d".data
      let endTok ← peekT c
      pure (SymbolNode.classDecl c.d.uri nameTok.value
        (positionAt c.d.text nameTok.start) (positionAt c.d.text nameTok.stop)
        annotations mods genericVars base members
        (positionAt c.d.text t.start) (positionAt c.d.text endTok.stop))
    else if t.value = "enum".data then do
      let _ ← nextT c
      let nameTok ← expectIdentifier c
      let t2 ← peekT c
      let base ←
        if t2.value = ":".data ∨ t2.value = "extends".data then do
          let _ ← nextT c
          let b ← expectIdentifier c
          pure (some b.value)
        else pure none
      let _ ← expectVal c "\x7b".data
      let members ← enumMembersLoop c (c.toks.length + 2) []
      let _ ← expectVal c "\x7d".data
      let endTok ← peekT c
      pure (SymbolNode.enumDecl c.d.uri nameTok.value
        (positionAt c.d.text nameTok.start) (positionAt c.d.text nameTok.stop)
        annotations mods base members
        (positionAt c.d.text t.start) (positionAt c.d.text endTok.stop))
    else if t.value = "typedef".data then do
      let _ ← nextT c
      let oldType ← parseType c (c.toks.length + 2)
      let nameTok ← expectIdentifier c
      let endTok ← peekT c
      pure (SymbolNode.typedef c.d.uri nameTok.value
        (positionAt c.d.text nameTok.start) (positionAt c.d.text nameTok.stop)
        annotations mods oldType
        (positionAt c.d.text t.start) (positionAt c.d.text endTok.stop))
    else do
      let tn ← parseTypeAndName c (c.toks.length + 2)
      let type := tn.1
      let name := tn.2
      let t2 ← peekT c
      if t2.value = "(".data then do
        let params ← fastParamScan c fuel
        let t3 ← peekT c
        if t3.value = "\x7b".data then do
          let _ ← nextT c
          bodySkipLoop c (c.toks.length + 2) 1
        else pure ()
        let endTok ← peekT c
        pure (SymbolNode.functionDecl c.d.uri name.value
          (positionAt c.d.text name.start) (positionAt c.d.text name.stop)
          annotations mods params type [] type.start (positionAt c.d.text endTok.stop))
      else do
        let t3 ← peekT c
        if t3.value = "=".data then do
          let _ ← nextT c
          initSkipLoop c inline (c.toks.length + 2)
        else pure ()
        let endTok ← peekT c
        pure (SymbolNode.varDecl c.d.uri name.value
          (positionAt c.d.text name.start) (positionAt c.d.text name.stop)
          annotations mods type type.start (positionAt c.d.text endTok.stop))

/-- Member loop of the class branch (semicolons between members skipped). -/
def classMembersLoop (c : PCtx) : Nat → List SymbolNode → PM (List SymbolNode)
  | 0, _ => throw .typeError
  | fuel + 1, acc => do
    let t ← peekT c
    if t.value ≠ "\x7d".data ∧ t.kind ≠ .EOF then
      if t.value = ";".data then do
        let _ ← nextT c
        classMembersLoop c fuel acc
      else do
        let m ← parseDecl c fuel false
        classMembersLoop c fuel (acc ++ [m])
    else pure acc

/-- Source `fastParamScan`: parenthesised inline variable declarations, default
values scanned and discarded. -/
def fastParamScan (c : PCtx) : Nat → PM (List SymbolNode)
  | 0 => throw .typeError
  | fuel + 1 => do
    let _ ← expectVal c "(".data
    let list ← fastParamLoop c fuel []
    let _ ← expectVal c ")".data
    pure list

/-- Parameter loop of `fastParamScan`. -/
def fastParamLoop (c : PCtx) : Nat → List SymbolNode → PM (List SymbolNode)
  | 0, _ => throw .typeError
  | fuel + 1, acc => do
    let t ← peekT c
    if t.kind ≠ .EOF ∧ t.value ≠ ")".data then do
      let varDecl ← expectVarDecl c fuel true
      paramSkipLoop c (c.toks.length + 2)
      let t2 ← peekT c
      if t2.value = ",".data then do
        let _ ← nextT c
        fastParamLoop c fuel (acc ++ [varDecl])
      else fastParamLoop c fuel (acc ++ [varDecl])
    else pure acc

/-- Source `expectVarDecl`: a `parseDecl` result that must be a `VarDecl`. -/
def expectVarDecl (c : PCtx) : Nat → Bool → PM SymbolNode
  | 0, _ => throw .typeError
  | fuel + 1, inline => do
    let decl ← parseDecl c fuel inline
    match decl with
    | .varDecl .. => pure decl
    | _ => do
      let t ← peekT c
      throwErr c t "variable declaration".data

end

/-- The parser's main loop: skip stray semicolons, collect declarations
until end of file. -/
def mainLoop (c : PCtx) : Nat → List SymbolNode → PM (List SymbolNode)
  | 0, _ => throw .typeError
  | fuel + 1, acc => do
    let t ← peekT c
    if t.kind = .EOF then pure acc
    else if t.value = ";".data then do
      let _ ← nextT c
      mainLoop c fuel acc
    else do
      let node ← parseDecl c fuel false
      mainLoop c fuel (acc ++ [node])

/-- Source `parse(doc)`: lex, run the main loop from cursor 0, pair the body with
the document version.  The fuel bound `4 * |toks| + 16` dominates the
mutual-recursion depth: every loop iteration and every declaration consumes
at least one token, and at most four fuel-charging frames separate
consecutive token consumptions. -/
def parse (d : TextDoc) : Except JsError File :=
  let toks := lex d.text
  let c : PCtx := ⟨d, toks⟩
  match (mainLoop c (4 * toks.length + 16) []).run 0 with
  | .ok (body, _) => .ok ⟨body, d.version⟩
  | .error e => .error e

/-! ## Symbol index (`Analyzer` of `graph.ts`, revision of `part_003`)

The analyzer's `docCache` JS `Map` becomes an association list with JS `Map`
semantics: `set` updates an existing key in place (keeping its insertion
position) and appends new keys; iteration order is insertion order. -/

/-- Modelled from the spec: `normalizeUri` (`util/uri.ts`) delegates to the
external `vscode-uri` library's `URI.parse(uri).toString()`; on an already
canonical URI string that round-trip is the identity, which is how the spec
treats document identity ("mapping from normalized URI"). -/
def normalizeUri (uri : String) : String := uri

/-- The analyzer's per-URI cache of parsed `File`s. -/
abbrev DocCache := List (String × File)

/-- JS `Map.get`. -/
def mapGet : DocCache → String → Option File
  | [], _ => none
  | (k, v) :: rest, key => if k = key then some v else mapGet rest key

/-- JS `Map.set`: replace in place, else append (JS insertion-order semantics). -/
def mapSet : DocCache → String → File → DocCache
  | [], key, f => [(key, f)]
  | (k, v) :: rest, key, f =>
    if k = key then (k, f) :: rest else (k, v) :: mapSet rest key f

/-- The parse-or-fallback tail of `ensure`: on success store and return the
new `File`; on any thrown error (the catch-all) return the empty stub
`{body: [], version: 0}` — note the catch block only logs, it does *not*
write the stub into the cache. -/
def ensureParse (cache : DocCache) (doc : TextDoc) (key : String) : File × DocCache :=
  match parse doc with
  | .ok ast => (ast, mapSet cache key ast)
  | .error _ => (⟨[], 0⟩, cache)

/-- Source `Analyzer.ensure(doc)`: cache hit on matching version, otherwise
re-parse.  Total: no exception escapes (the source catch-all). -/
def ensure (cache : DocCache) (doc : TextDoc) : File × DocCache :=
  let key := normalizeUri doc.uri
  match mapGet cache key with
  | some cachedFile =>
    if cachedFile.version = doc.version then (cachedFile, cache)
    else ensureParse cache doc key
  | none => ensureParse cache doc key

/-- Source `getTokenAtPosition(text, offset)`: re-lex only a ±64-character window
around the offset and return the first token whose (window-absolute) span
contains the offset, rebased to absolute offsets. -/
def getTokenAtPosition (text : List Char) (offset : Nat) : Option Token :=
  let windowSize := 64
  let start := offset - windowSize
  let stop := min text.length (offset + windowSize)
  let tokens := lex (slice text start stop)
  (tokens.find? (fun t => decide (start + t.start ≤ offset ∧ offset ≤ start + t.stop))).map
    (fun t => { t with start := start + t.start, stop := start + t.stop })

/-- The matches one cached top-level node contributes in
`resolveDefinitions`, in push order: the node itself on a top-level name
match, then name-matching class members, then name-matching enum members. -/
def defMatchesNode (name : List Char) (node : SymbolNode) : List SymbolNode :=
  (if node.name = name then [node] else [])
    ++ (match node with
        | .classDecl _ _ _ _ _ _ _ _ members _ _ =>
          members.filter (fun m => decide (m.name = name))
        | _ => [])
    ++ (match node with
        | .enumDecl _ _ _ _ _ _ _ members _ _ =>
          members.filter (fun m => decide (m.name = name))
        | _ => [])

/-- Source `Analyzer.resolveDefinitions(doc, pos)`: find the identifier under the
cursor, then scan every cached file's top-level, class-member and
enum-member declarations for exact name matches, in cache-iteration order. -/
def resolveDefinitions (cache : DocCache) (doc : TextDoc) (pos : Pos) : List SymbolNode :=
  let offset := offsetAt doc.text pos
  match getTokenAtPosition doc.text offset with
  | none => []
  | some token =>
    if token.kind ≠ .Identifier then []
    else cache.flatMap (fun e => e.2.body.flatMap (defMatchesNode token.value))

/-- Modelled from the spec: `toSymbolKind` is exported by the parser
revision that is not under `src/`; it maps the declaration-kind tag to the
numeric LSP `SymbolKind` (Class 5, Enum 10, Function 12, Variable 13,
EnumMember 22; the spec fixes no number for `Typedef`, 7 stands in).  No
claim depends on the numeric values. -/
def toSymbolKind (kind : String) : Nat :=
  if kind = "ClassDecl" then 5
  else if kind = "EnumDecl" then 10
  else if kind = "FunctionDecl" then 12
  else if kind = "VarDecl" then 13
  else if kind = "EnumMemberDecl" then 22
  else if kind = "Typedef" then 7
  else 13

/-- JS `String.prototype.includes`: case-sensitive substring test. -/
def jsIncludes (hay sub : List Char) : Bool :=
  (List.range (hay.length + 1)).any (fun i => sub.isPrefixOf (hay.drop i))

/-- LSP `SymbolInformation` as produced by `getWorkspaceSymbols`. -/
structure SymbolInformation where
  name : List Char
  kind : Nat
  containerName : Option (List Char)
  uri : String
  rangeStart : Pos
  rangeEnd : Pos
deriving DecidableEq, Repr

mutual

/-- Structural size of a declaration node (for workspace-symbol fuel). -/
def SymbolNode.nodeSize : SymbolNode → Nat
  | .classDecl _ _ _ _ _ _ _ _ members _ _ => 1 + SymbolNode.listSize members
  | .enumDecl _ _ _ _ _ _ _ members _ _ => 1 + SymbolNode.listSize members
  | _ => 1

/-- Structural size of a declaration list. -/
def SymbolNode.listSize : List SymbolNode → Nat
  | [] => 1
  | n :: rest => 1 + SymbolNode.nodeSize n + SymbolNode.listSize rest

end

mutual

/-- List traversal of `getInnerWorkspaceSymbols`.  The fuel only bounds the
recursion depth; `SymbolNode.listSize` of the root body always suffices. -/
def innerWSList (uri : String) (query : List Char) :
    Nat → List SymbolNode → Option (List Char) → List SymbolInformation
  | 0, _, _ => []
  | _ + 1, [], _ => []
  | fuel + 1, n :: rest, container =>
    innerWSNode uri query fuel n container ++ innerWSList uri query fuel rest container

/-- Per-node body of `getInnerWorkspaceSymbols`: substring-match the name,
recurse into class members with the class as container, and emit matching
enum members with the enum as container. -/
def innerWSNode (uri : String) (query : List Char) :
    Nat → SymbolNode → Option (List Char) → List SymbolInformation
  | 0, _, _ => []
  | fuel + 1, n, container =>
    (if jsIncludes n.name query then
      [⟨n.name, toSymbolKind n.kindStr, container, uri, n.nameStart, n.nameEnd⟩]
    else [])
    ++ (match n with
        | .classDecl _ name _ _ _ _ _ _ members _ _ =>
          innerWSList uri query fuel members (some name)
        | _ => [])
    ++ (match n with
        | .enumDecl _ name _ _ _ _ _ members _ _ =>
          members.filterMap (fun en =>
            if jsIncludes en.name query then
              some ⟨en.name, 22, some name, uri, en.nameStart, en.nameEnd⟩
            else none)
        | _ => [])

end

/-- Source `Analyzer.getWorkspaceSymbols(query)`: walk every cached file's
declaration tree in cache-iteration order. -/
def getWorkspaceSymbols (cache : DocCache) (query : List Char) : List SymbolInformation :=
  cache.flatMap (fun e => innerWSList e.1 query (SymbolNode.listSize e.2.body) e.2.body none)

/-- An LSP diagnostic as produced by `runDiagnostics`. -/
structure Diagnostic where
  message : List Char
  rangeStart : Pos
  rangeEnd : Pos
  severity : Nat
deriving DecidableEq, Repr

/-- The diagnostic message for a typedef. -/
def typedefDiagMsg (name : List Char) : List Char :=
  "Typedef '".data ++ name ++ "' is never used".data

/-- The range endpoints `runDiagnostics` actually computes:
`doc.positionAt(node.start)` is applied to a `Position` object, not an
offset; in JS the clamp produces `NaN`, the binary search then lands on the
last line with a `NaN` character.  `NaN` has no `Nat` counterpart, so 0
stands in for the character; no claim inspects these ranges. -/
def positionAtOfPos (text : List Char) : Pos :=
  ⟨(lineOffsets text).length - 1, 0⟩

/-- Source `Analyzer.runDiagnostics(doc)`: ensure the document, then one
"never used" diagnostic per *top-level* `Typedef` node, unconditionally. -/
def runDiagnostics (cache : DocCache) (doc : TextDoc) : List Diagnostic × DocCache :=
  let r := ensure cache doc
  (r.1.body.filterMap (fun node =>
    match node with
    | .typedef _ name _ _ _ _ _ _ _ =>
      some ⟨typedefDiagMsg name, positionAtOfPos doc.text, positionAtOfPos doc.text, 2⟩
    | _ => none), r.2)

/-- The claim-side flattening: every cached File's top-level declarations,
class-member declarations and enum-member declarations, one level deep, in
cache-iteration order. -/
def allIndexedDecls (cache : DocCache) : List SymbolNode :=
  cache.flatMap (fun e => e.2.body.flatMap
    (fun n => n :: (n.classMembers ++ n.enumMembers)))

/-- The claim-side specification of definition lookup: all indexed
declarations whose name matches exactly, ambiguity preserved. -/
def gatherByName (cache : DocCache) (name : List Char) : List SymbolNode :=
  (allIndexedDecls cache).filter (fun n => decide (n.name = name))

/-! ## Claims -/

/-- C2: parsing `class Foo : Base { int x; void Bar(int y) {} }` succeeds
and yields a File whose body is exactly one ClassDecl named `Foo` with base
type `Base` and two members in order: a VarDecl `x` of type identifier
`int`, and a FunctionDecl `Bar` with return type identifier `void`, exactly
one parameter VarDecl `y` of type `int`, and an empty locals list. -/
theorem parse_class_end_to_end :
    ∃ f, parse ⟨"file:///t.c", 1, "class Foo : Base \x7b int x; void Bar(int y) \x7b\x7d \x7d".data⟩
        = Except.ok f
      ∧ f.version = 1
      ∧ f.body.map (fun n => (n.kindStr, n.name, n.baseType?.map TypeNode.identifier))
          = [("ClassDecl", "Foo".data, some "Base".data)]
      ∧ (f.body.flatMap SymbolNode.classMembers).map
          (fun m => (m.kindStr, m.name,
            m.varType?.map TypeNode.identifier, m.returnType?.map TypeNode.identifier))
          = [("VarDecl", "x".data, some "int".data, none),
             ("FunctionDecl", "Bar".data, none, some "void".data)]
      ∧ ((f.body.flatMap SymbolNode.classMembers).flatMap SymbolNode.params).map
          (fun p => (p.kindStr, p.name, p.varType?.map TypeNode.identifier))
          = [("VarDecl", "y".data, some "int".data)]
      ∧ (f.body.flatMap SymbolNode.classMembers).map SymbolNode.localsOf = [[], []] :=
  ⟨_, rfl, rfl, rfl, rfl, rfl, rfl⟩

/-- C4: `int[3][] x;` parses with `x`'s type carrying
`arrayDims = [3, absent]`, while `int[3] x[2];` raises a parse failure
(array dimensions declared on both the type and the variable name). -/
theorem parse_array_dims_both_sides :
    (∃ f, parse ⟨"file:///t.c", 1, "int[3][] x;".data⟩ = Except.ok f
      ∧ f.body.map (fun n =>
          (n.kindStr, n.name, n.varType?.map (fun t => (t.identifier, t.arrayDims))))
          = [("VarDecl", "x".data, some ("int".data, [ArrayDim.num 3, ArrayDim.absent]))])
    ∧ parse ⟨"file:///t.c", 1, "int[3] x[2];".data⟩
        = Except.error (.parseError ⟨"file:///t.c", 1, 9,
            "expected not another [, got '[' (Punctuation)".data⟩) :=
  ⟨⟨_, rfl, rfl⟩, rfl⟩

/-- C9: parsing is a deterministic function of the document's URI, version
and text — two parses of documents agreeing on all three fields produce
structurally identical Files. -/
theorem parse_deterministic (d1 d2 : TextDoc)
    (h1 : d1.uri = d2.uri) (h2 : d1.version = d2.version) (h3 : d1.text = d2.text) :
    parse d1 = parse d2 := by
  cases d1
  cases d2
  simp only at h1 h2 h3
  subst h1 h2 h3
  rfl

/-- C9 witness: the determinism theorem applied at a concrete document. -/
theorem parse_deterministic_witness :
    parse ⟨"file:///a.c", 1, "int x;".data⟩ = parse ⟨"file:///a.c", 1, "int x;".data⟩ :=
  parse_deterministic _ _ rfl rfl rfl

/-! Lexer scan monotonicity: every scan helper only moves forward. -/

theorem scanWhile_ge (p : Char → Bool) (text : List Char) :
    ∀ fuel i, i ≤ scanWhile p text fuel i := by
  intro fuel
  induction fuel with
  | zero => intro i; simp [scanWhile]
  | succ f ih =>
    intro i
    simp only [scanWhile]
    cases text.get? i with
    | none => exact Nat.le_refl i
    | some c =>
      by_cases hp : p c
      · simp only [hp, if_true]
        exact Nat.le_trans (Nat.le_succ i) (ih (i + 1))
      · simp [hp]

theorem scanBlock_ge (text : List Char) :
    ∀ fuel i, i ≤ scanBlock text fuel i := by
  intro fuel
  induction fuel with
  | zero => intro i; simp [scanBlock]
  | succ f ih =>
    intro i
    simp only [scanBlock]
    split
    · exact Nat.le_trans (Nat.le_succ i) (ih (i + 1))
    · exact Nat.le_refl i

theorem scanStr_ge (text : List Char) :
    ∀ fuel i, i ≤ scanStr text fuel i := by
  intro fuel
  induction fuel with
  | zero => intro i; simp [scanStr]
  | succ f ih =>
    intro i
    simp only [scanStr]
    cases text.get? i with
    | none => exact Nat.le_refl i
    | some c =>
      by_cases h1 : c = '"'
      · simp [h1]
      · by_cases h2 : c = '\\'
        · simp only [h1, h2, if_false, if_true]
          exact Nat.le_trans (Nat.le_add_right i 2) (ih (i + 2))
        · simp only [h1, h2, if_false]
          exact Nat.le_trans (Nat.le_succ i) (ih (i + 1))

/-- Structure of every lexer output: a run of non-EOF tokens closed by a
single EOF token. -/
theorem lexLoop_eof_structure (text : List Char) :
    ∀ fuel i, ∃ ts t, lexLoop text fuel i = ts ++ [t] ∧ t.kind = .EOF ∧
      ∀ u ∈ ts, u.kind ≠ .EOF := by
  intro fuel
  induction fuel with
  | zero =>
    intro i
    exact ⟨[], ⟨.EOF, [], i, i⟩, rfl, rfl, by simp⟩
  | succ f ih =>
    intro i
    have step : ∀ (tok : Token) (j : Nat), tok.kind ≠ TokenKind.EOF →
        ∃ ts t, tok :: lexLoop text f j = ts ++ [t] ∧ t.kind = .EOF ∧
          ∀ u ∈ ts, u.kind ≠ .EOF := by
      intro tok j hk
      obtain ⟨ts, t, he, ht, hall⟩ := ih j
      refine ⟨tok :: ts, t, by rw [he, List.cons_append], ht, ?_⟩
      intro u hu
      rcases List.mem_cons.mp hu with rfl | hu
      · exact hk
      · exact hall u hu
    cases hg : text.get? i with
    | none =>
      simp only [lexLoop, hg]
      exact ⟨[], ⟨.EOF, [], i, i⟩, rfl, rfl, by simp⟩
    | some ch =>
      simp only [lexLoop, hg]
      split_ifs with h1 h2 h3 h4 h5 h6 h7 h8 h9
      · exact ih (i + 1)
      · exact step _ _ (by simp)
      · exact step _ _ (by simp)
      · exact step _ _ (by simp)
      · exact step _ _ (by simp)
      · exact step _ _ (by simp)
      · exact step _ _ (by simp)
      · exact step _ _ (by simp)
      · exact step _ _ (by simp)
      · exact step _ _ (by simp)

/-- C5: for every input text the lexer terminates and never fails (it is a
total function by construction), and its output contains exactly one
EndOfFile token, which is the last element. -/
theorem lex_total_single_eof (text : List Char) :
    ((lex text).filter (fun t => decide (t.kind = .EOF))).length = 1
    ∧ (lex text).getLast?.map Token.kind = some .EOF := by
  obtain ⟨ts, t, he, ht, hall⟩ := lexLoop_eof_structure text (text.length + 1) 0
  unfold lex
  rw [he]
  constructor
  · rw [List.filter_append]
    have h1 : ts.filter (fun t => decide (t.kind = .EOF)) = [] := by
      rw [List.filter_eq_nil_iff]
      intro u hu
      simpa using hall u hu
    rw [h1]
    simp [ht]
  · simp [List.getLast?_concat, ht]

theorem drop_of_get? (text : List Char) :
    ∀ i ch, text.get? i = some ch → text.drop i = ch :: text.drop (i + 1) := by
  induction text with
  | nil => intro i ch h; simp at h
  | cons c rest ih =>
    intro i ch h
    cases i with
    | zero =>
      simp only [List.get?_cons_zero, Option.some.injEq] at h
      simp [h]
    | succ n =>
      simp only [List.get?_cons_succ] at h
      simpa using ih n ch h

theorem slice_single (text : List Char) (i : Nat) (ch : Char)
    (h : text.get? i = some ch) : slice text i (i + 1) = [ch] := by
  have h2 : i + 1 - i = 1 := by omega
  rw [slice, drop_of_get? text i ch h, h2]
  rfl

/-- Every token emitted from index `i` on starts at or after `i`, has a
well-ordered span whose value is the corresponding text slice, and
consecutive tokens never overlap. -/
theorem lexLoop_inv (text : List Char) :
    ∀ fuel i,
      (∀ t ∈ lexLoop text fuel i,
        i ≤ t.start ∧ t.start ≤ t.stop ∧ t.value = slice text t.start t.stop)
      ∧ List.Chain' (fun a b => a.stop ≤ b.start) (lexLoop text fuel i) := by
  intro fuel
  induction fuel with
  | zero =>
    intro i
    constructor
    · intro t ht
      simp only [lexLoop, List.mem_singleton] at ht
      subst ht
      exact ⟨Nat.le_refl i, Nat.le_refl i, by simp [slice]⟩
    · simp [lexLoop]
  | succ f ih =>
    intro i
    have step : ∀ (k : TokenKind) (v : List Char) (j : Nat),
        i ≤ j → v = slice text i j →
        (∀ t ∈ (⟨k, v, i, j⟩ : Token) :: lexLoop text f j,
          i ≤ t.start ∧ t.start ≤ t.stop ∧ t.value = slice text t.start t.stop)
        ∧ List.Chain' (fun a b => a.stop ≤ b.start)
            ((⟨k, v, i, j⟩ : Token) :: lexLoop text f j) := by
      intro k v j hij hv
      obtain ⟨ihmem, ihchain⟩ := ih j
      constructor
      · intro t ht
        rcases List.mem_cons.mp ht with rfl | ht
        · exact ⟨Nat.le_refl i, hij, hv⟩
        · obtain ⟨ha, hb, hc⟩ := ihmem t ht
          exact ⟨Nat.le_trans hij ha, hb, hc⟩
      · refine List.chain'_cons'.mpr ⟨?_, ihchain⟩
        intro b hb
        exact (ihmem b (List.mem_of_mem_head? hb)).1
    cases hg : text.get? i with
    | none =>
      simp only [lexLoop, hg]
      constructor
      · intro t ht
        simp only [List.mem_singleton] at ht
        subst ht
        exact ⟨Nat.le_refl i, Nat.le_refl i, by simp [slice]⟩
      · simp
    | some ch =>
      simp only [lexLoop, hg]
      split_ifs with h1 h2 h3 h4 h5 h6 h7 h8 h9
      · obtain ⟨ihmem, ihchain⟩ := ih (i + 1)
        refine ⟨?_, ihchain⟩
        intro t ht
        obtain ⟨ha, hb, hc⟩ := ihmem t ht
        exact ⟨Nat.le_trans (Nat.le_succ i) ha, hb, hc⟩
      · exact step _ _ _
          (Nat.le_trans (Nat.le_add_right i 2) (scanWhile_ge _ _ _ _)) rfl
      · exact step _ _ _
          (Nat.le_trans (Nat.le_add_right i 2)
            (Nat.le_trans (scanBlock_ge _ _ _) (Nat.le_add_right _ 2))) rfl
      · exact step _ _ _ (scanWhile_ge _ _ _ _) rfl
      · exact step _ _ _
          (Nat.le_trans (Nat.le_succ i)
            (Nat.le_trans (scanStr_ge _ _ _) (Nat.le_succ _))) rfl
      · exact step _ _ _ (scanWhile_ge _ _ _ _) rfl
      · exact step _ _ _ (scanWhile_ge _ _ _ _) rfl
      · exact step _ _ _ (scanWhile_ge _ _ _ _) rfl
      · exact step _ _ _ (Nat.le_succ i) (slice_single text i ch hg).symm
      · exact step _ _ _ (Nat.le_succ i) (slice_single text i ch hg).symm

/-- C10: every token satisfies `start ≤ end` and
`value = text.slice(start, end)`, and the stream is ordered left to right:
each token starts at or after the previous token's end. -/
theorem lex_spans_ordered (text : List Char) :
    ((lex text).all (fun t =>
      decide (t.start ≤ t.stop ∧ t.value = slice text t.start t.stop))) = true
    ∧ List.Chain' (fun a b => a.stop ≤ b.start) (lex text) := by
  unfold lex
  obtain ⟨hmem, hchain⟩ := lexLoop_inv text (text.length + 1) 0
  refine ⟨?_, hchain⟩
  rw [List.all_eq_true]
  intro t ht
  obtain ⟨_, hb, hc⟩ := hmem t ht
  exact decide_eq_true ⟨hb, hc⟩

/-- C1 counterexample: `ensure` on an empty cache with an unparsable
document (`"class"` with no name) returns the empty stub, but creates *no*
cache entry — the URI is still absent afterwards, contradicting "the cache
entry for that URI is replaced by (or created as) the empty stub". -/
theorem ensure_fail_entry_absent :
    (ensure [] ⟨"file:///a.c", 1, "class".data⟩).1 = ⟨[], 0⟩
    ∧ mapGet (ensure [] ⟨"file:///a.c", 1, "class".data⟩).2
        (normalizeUri "file:///a.c") = none :=
  ⟨rfl, rfl⟩

/-- C1 amended: when the parse fails (and no version-matching entry short-
circuits the call), `ensure` returns the empty stub `{body: [], version: 0}`
and no exception propagates (`ensure` is a total function), but the cache is
left entirely unchanged: the stub is *not* written, so an absent entry stays
absent and a stale entry stays stale. -/
theorem ensure_fail_stub_uncached (cache : DocCache) (doc : TextDoc) (e : JsError)
    (hp : parse doc = .error e)
    (hv : ∀ f, mapGet cache (normalizeUri doc.uri) = some f → f.version ≠ doc.version) :
    ensure cache doc = (⟨[], 0⟩, cache) := by
  cases hm : mapGet cache (normalizeUri doc.uri) with
  | none => simp only [ensure, ensureParse, hm, hp]
  | some f => simp only [ensure, ensureParse, hm, hp, if_neg (hv f hm)]

/-- C1 witness: the amended theorem at the concrete failing document. -/
theorem ensure_fail_stub_uncached_witness :
    ensure [] ⟨"file:///a.c", 1, "class".data⟩ = (⟨[], 0⟩, []) :=
  ensure_fail_stub_uncached [] ⟨"file:///a.c", 1, "class".data⟩ _ rfl
    (fun f hf => by simp [mapGet] at hf)

/-- C7: an `ensure` whose parse fails leaves the cache entry of every other
URI exactly as it was (in fact it leaves the whole cache untouched). -/
theorem ensure_fail_frame (cache : DocCache) (doc : TextDoc) (e : JsError) (v : String)
    (hp : parse doc = .error e) (hne : v ≠ doc.uri) :
    mapGet (ensure cache doc).2 v = mapGet cache v := by
  clear hne
  cases hm : mapGet cache (normalizeUri doc.uri) with
  | none => simp only [ensure, ensureParse, hm, hp]
  | some f =>
    by_cases hv : f.version = doc.version
    · simp only [ensure, hm, if_pos hv]
    · simp only [ensure, ensureParse, hm, hp, if_neg hv]

/-- C7 witness: a failing parse of one document leaves the other cached
entry unchanged. -/
theorem ensure_fail_frame_witness :
    mapGet (ensure [("file:///b.c", ⟨[], 1⟩)] ⟨"file:///a.c", 1, "class".data⟩).2 "file:///b.c"
      = mapGet [("file:///b.c", ⟨[], 1⟩)] "file:///b.c" :=
  ensure_fail_frame [("file:///b.c", ⟨[], 1⟩)] ⟨"file:///a.c", 1, "class".data⟩ _
    "file:///b.c" rfl (by decide)

/-- C8 counterexample: a document whose only Typedef declaration is a class
member.  The parsed File contains exactly one Typedef (the sole member of
class `C`), yet `runDiagnostics` returns no diagnostic at all —
`runDiagnostics` scans only top-level nodes. -/
theorem runDiagnostics_nested_typedef_missed :
    (runDiagnostics [] ⟨"file:///a.c", 1, "class C \x7b typedef int T; \x7d".data⟩).1 = []
    ∧ ((ensure [] ⟨"file:///a.c", 1, "class C \x7b typedef int T; \x7d".data⟩).1.body.map
        (fun n => (n.kindStr, n.classMembers.map SymbolNode.kindStr)))
        = [("ClassDecl", ["Typedef"])] :=
  ⟨rfl, rfl⟩

theorem typedef_filterMap_eq (a b : Pos) :
    ∀ body : List SymbolNode,
      (body.filterMap (fun node =>
        match node with
        | .typedef _ name _ _ _ _ _ _ _ =>
          some (⟨typedefDiagMsg name, a, b, 2⟩ : Diagnostic)
        | _ => none))
      = (body.filter (fun n => decide (n.kindStr = "Typedef"))).map
          (fun n => ⟨typedefDiagMsg n.name, a, b, 2⟩) := by
  intro body
  induction body with
  | nil => rfl
  | cons n rest ih =>
    cases n <;>
      simp [List.filterMap_cons, List.filter_cons, SymbolNode.kindStr, SymbolNode.name, ih]

/-- C8 amended: `runDiagnostics` reports exactly the *top-level* Typedef
declarations, one "never used" diagnostic each, unconditionally and in
order; Typedefs nested inside class bodies are not scanned.  In particular a
File with exactly one top-level Typedef yields exactly one diagnostic. -/
theorem runDiagnostics_reports_top_level_typedefs (cache : DocCache) (doc : TextDoc) :
    (runDiagnostics cache doc).1
      = ((ensure cache doc).1.body.filter (fun n => decide (n.kindStr = "Typedef"))).map
          (fun n => ⟨typedefDiagMsg n.name,
            positionAtOfPos doc.text, positionAtOfPos doc.text, 2⟩) := by
  simp only [runDiagnostics]
  exact typedef_filterMap_eq _ _ _

theorem defMatchesNode_eq_filter (name : List Char) (n : SymbolNode) :
    defMatchesNode name n
      = (n :: (n.classMembers ++ n.enumMembers)).filter
          (fun m => decide (m.name = name)) := by
  cases n <;>
    simp only [defMatchesNode, SymbolNode.classMembers, SymbolNode.enumMembers,
      SymbolNode.name, List.filter_cons, List.filter_append, List.filter_nil,
      List.append_nil, List.nil_append] <;>
    split <;>
    simp_all

theorem flatMap_defMatches_eq_gather (cache : DocCache) (name : List Char) :
    cache.flatMap (fun e => e.2.body.flatMap (defMatchesNode name))
      = gatherByName cache name := by
  unfold gatherByName allIndexedDecls
  induction cache with
  | nil => rfl
  | cons e rest ih =>
    simp only [List.flatMap_cons, List.filter_append]
    rw [ih]
    congr 1
    induction e.2.body with
    | nil => rfl
    | cons n ns ih2 =>
      simp only [List.flatMap_cons, List.filter_append]
      rw [ih2, defMatchesNode_eq_filter]

/-- C3: whenever the under-cursor token (found by re-lexing the ±64-character
window) is an identifier, `resolveDefinitions` returns exactly the
declarations with that name gathered from every cached File's top-level,
class-member and enum-member declarations, in cache-iteration order. -/
theorem resolveDefinitions_gathers (cache : DocCache) (doc : TextDoc) (pos : Pos)
    (tok : Token)
    (h1 : getTokenAtPosition doc.text (offsetAt doc.text pos) = some tok)
    (h2 : tok.kind = .Identifier) :
    resolveDefinitions cache doc pos = gatherByName cache tok.value := by
  unfold resolveDefinitions
  simp only []
  rw [h1]
  show (if tok.kind ≠ TokenKind.Identifier then []
      else cache.flatMap fun e => e.2.body.flatMap (defMatchesNode tok.value))
    = gatherByName cache tok.value
  rw [if_neg (by simp [h2])]
  exact flatMap_defMatches_eq_gather cache tok.value

/-- C3 witness: a name that is a class in one cached file and a function in
another; both cached files were produced by `ensure`, and both declarations
are returned. -/
theorem resolveDefinitions_gathers_witness :
    resolveDefinitions
      (ensure (ensure [] ⟨"file:///a.c", 1, "class Foo \x7b\x7d".data⟩).2
        ⟨"file:///b.c", 1, "void Foo() \x7b\x7d".data⟩).2
      ⟨"file:///c.c", 1, "Foo".data⟩ ⟨0, 1⟩
      = gatherByName
          (ensure (ensure [] ⟨"file:///a.c", 1, "class Foo \x7b\x7d".data⟩).2
            ⟨"file:///b.c", 1, "void Foo() \x7b\x7d".data⟩).2
          "Foo".data :=
  resolveDefinitions_gathers _ _ _ ⟨.Identifier, "Foo".data, 0, 3⟩ rfl rfl

/-- Every symbol the inner workspace walk produces for an entry carries that
entry's URI. -/
theorem innerWS_uri (uri : String) (query : List Char) :
    ∀ fuel,
      (∀ ms cont si, si ∈ innerWSList uri query fuel ms cont → si.uri = uri)
      ∧ (∀ n cont si, si ∈ innerWSNode uri query fuel n cont → si.uri = uri) := by
  intro fuel
  induction fuel with
  | zero =>
    constructor
    · intro ms cont si h
      simp [innerWSList] at h
    · intro n cont si h
      simp [innerWSNode] at h
  | succ f ih =>
    constructor
    · intro ms cont si h
      cases ms with
      | nil => simp [innerWSList] at h
      | cons n rest =>
        rw [innerWSList] at h
        rcases List.mem_append.mp h with h | h
        · exact ih.2 n cont si h
        · exact ih.1 rest cont si h
    · intro n cont si h
      cases n with
      | classDecl u nm nms nme ann mods gv base members s e =>
        simp only [innerWSNode, List.append_nil] at h
        rcases List.mem_append.mp h with h | h
        · split at h
          · simp only [List.mem_singleton] at h
            subst h
            rfl
          · simp at h
        · exact ih.1 members (some nm) si h
      | enumDecl u nm nms nme ann mods base members s e =>
        simp only [innerWSNode, List.append_nil] at h
        rcases List.mem_append.mp h with h | h
        · split at h
          · simp only [List.mem_singleton] at h
            subst h
            rfl
          · simp at h
        · rcases List.mem_filterMap.mp h with ⟨en, _, hsome⟩
          by_cases hq : jsIncludes en.name query
          · rw [if_pos hq] at hsome
            cases hsome
            rfl
          · rw [if_neg hq] at hsome
            cases hsome
      | typedef u nm nms nme ann mods old s e =>
        simp only [innerWSNode, List.append_nil] at h
        split at h
        · simp only [List.mem_singleton] at h
          subst h
          rfl
        · simp at h
      | varDecl u nm nms nme ann mods ty s e =>
        simp only [innerWSNode, List.append_nil] at h
        split at h
        · simp only [List.mem_singleton] at h
          subst h
          rfl
        · simp at h
      | functionDecl u nm nms nme ann mods ps rt ls s e =>
        simp only [innerWSNode, List.append_nil] at h
        split at h
        · simp only [List.mem_singleton] at h
          subst h
          rfl
        · simp at h
      | enumMemberDecl u nm nms nme ann mods s e =>
        simp only [innerWSNode, List.append_nil] at h
        split at h
        · simp only [List.mem_singleton] at h
          subst h
          rfl
        · simp at h

/-- Every workspace symbol's URI is one of the cache's keys. -/
theorem ws_uris (entries : DocCache) (query : List Char) :
    ∀ si ∈ getWorkspaceSymbols entries query, si.uri ∈ entries.map Prod.fst := by
  intro si h
  unfold getWorkspaceSymbols at h
  rw [List.mem_flatMap] at h
  obtain ⟨e, he, hsi⟩ := h
  rw [(innerWS_uri e.1 query _).1 _ _ _ hsi]
  exact List.mem_map.mpr ⟨e, he, rfl⟩

theorem mapGet_mapSet_self : ∀ (cache : DocCache) (key : String) (f : File),
    mapGet (mapSet cache key f) key = some f := by
  intro cache key f
  induction cache with
  | nil => simp [mapSet, mapGet]
  | cons e rest ih =>
    obtain ⟨k, v⟩ := e
    by_cases h : k = key
    · simp [mapSet, mapGet, h]
    · simp [mapSet, mapGet, h, ih]

theorem mapSet_keys : ∀ (cache : DocCache) (key : String) (f : File),
    (mapSet cache key f).map Prod.fst
      = if key ∈ cache.map Prod.fst then cache.map Prod.fst
        else cache.map Prod.fst ++ [key] := by
  intro cache key f
  induction cache with
  | nil => simp [mapSet]
  | cons e rest ih =>
    obtain ⟨k, v⟩ := e
    by_cases h : k = key
    · simp [mapSet, h]
    · simp only [mapSet, if_neg h, List.map_cons, List.mem_cons]
      rw [ih]
      by_cases hm : key ∈ rest.map Prod.fst
      · simp [hm, Ne.symm h]
      · simp [hm, Ne.symm h]

theorem mapSet_keys_nodup (cache : DocCache) (key : String) (f : File)
    (hk : (cache.map Prod.fst).Nodup) :
    ((mapSet cache key f).map Prod.fst).Nodup := by
  rw [mapSet_keys]
  by_cases hm : key ∈ cache.map Prod.fst
  · simpa [hm] using hk
  · rw [if_neg hm]
    exact List.Nodup.append hk (List.nodup_singleton key)
      (List.disjoint_singleton.mpr hm)

/-- Filtering the workspace symbols by a key picks out exactly the walk of
that key's cached file (keys assumed unique, as `Map` guarantees). -/
theorem ws_filter_key (key : String) (query : List Char) :
    ∀ entries : DocCache, (entries.map Prod.fst).Nodup →
      (getWorkspaceSymbols entries query).filter (fun si => decide (si.uri = key))
        = match mapGet entries key with
          | some f => innerWSList key query (SymbolNode.listSize f.body) f.body none
          | none => [] := by
  intro entries
  induction entries with
  | nil => intro _; rfl
  | cons e rest ih =>
    intro hk
    obtain ⟨k, f0⟩ := e
    rw [List.map_cons, List.nodup_cons] at hk
    unfold getWorkspaceSymbols
    rw [List.flatMap_cons, List.filter_append]
    have htail : (rest.flatMap (fun e =>
        innerWSList e.1 query (SymbolNode.listSize e.2.body) e.2.body none)).filter
          (fun si => decide (si.uri = key))
        = (getWorkspaceSymbols rest query).filter (fun si => decide (si.uri = key)) := rfl
    by_cases hke : k = key
    · subst hke
      have h1 : (innerWSList k query (SymbolNode.listSize f0.body) f0.body none).filter
          (fun si => decide (si.uri = k))
          = innerWSList k query (SymbolNode.listSize f0.body) f0.body none := by
        rw [List.filter_eq_self]
        intro si hsi
        exact decide_eq_true ((innerWS_uri k query _).1 _ _ _ hsi)
      have h2 : (getWorkspaceSymbols rest query).filter
          (fun si => decide (si.uri = k)) = [] := by
        rw [List.filter_eq_nil_iff]
        intro si hsi
        have := ws_uris rest query si hsi
        simp only [decide_eq_true_eq]
        intro heq
        rw [heq] at this
        exact hk.1 this
      rw [htail, h1, h2, List.append_nil]
      simp [mapGet]
    · have h1 : (innerWSList k query (SymbolNode.listSize f0.body) f0.body none).filter
          (fun si => decide (si.uri = key)) = [] := by
        rw [List.filter_eq_nil_iff]
        intro si hsi
        have := (innerWS_uri k query _).1 _ _ _ hsi
        simp only [decide_eq_true_eq]
        rw [this]
        exact hke
      rw [htail, h1, List.nil_append, ih hk.2]
      simp [mapGet, hke]

/-- C6: a successful re-`ensure` with a changed version wholesale replaces
the URI's cache entry with the newly parsed File, and a subsequent
`getWorkspaceSymbols` contains, for that URI, exactly the symbols generated
from the new File's declarations — never a mix of old and new. -/
theorem ensure_version_replaces_symbols (cache : DocCache) (doc : TextDoc)
    (ast oldF : File) (query : List Char)
    (hk : (cache.map Prod.fst).Nodup)
    (hold : mapGet cache (normalizeUri doc.uri) = some oldF)
    (hv : oldF.version ≠ doc.version)
    (hp : parse doc = .ok ast) :
    (ensure cache doc).1 = ast
    ∧ (ensure cache doc).2 = mapSet cache (normalizeUri doc.uri) ast
    ∧ (getWorkspaceSymbols (ensure cache doc).2 query).filter
        (fun si => decide (si.uri = normalizeUri doc.uri))
      = innerWSList (normalizeUri doc.uri) query
          (SymbolNode.listSize ast.body) ast.body none := by
  have hens : ensure cache doc = (ast, mapSet cache (normalizeUri doc.uri) ast) := by
    simp only [ensure, ensureParse, hold, hp, if_neg hv]
  rw [hens]
  refine ⟨rfl, rfl, ?_⟩
  rw [ws_filter_key _ _ _ (mapSet_keys_nodup _ _ _ hk), mapGet_mapSet_self]

/-- C6 witness: re-ensuring `file:///a.c` at version 2 with new content; the
workspace symbols for that URI come from the new parse only. -/
theorem ensure_version_replaces_symbols_witness :
    ((ensure (ensure [] ⟨"file:///a.c", 1, "class Foo \x7b\x7d".data⟩).2
        ⟨"file:///a.c", 2, "class Bar \x7b\x7d".data⟩).1
      = (parse ⟨"file:///a.c", 2, "class Bar \x7b\x7d".data⟩).toOption.getD ⟨[], 0⟩)
    ∧ (getWorkspaceSymbols (ensure (ensure [] ⟨"file:///a.c", 1, "class Foo \x7b\x7d".data⟩).2
        ⟨"file:///a.c", 2, "class Bar \x7b\x7d".data⟩).2 [].asString.data).filter
          (fun si => decide (si.uri = normalizeUri "file:///a.c"))
      = innerWSList (normalizeUri "file:///a.c") [].asString.data
          (SymbolNode.listSize ((parse ⟨"file:///a.c", 2, "class Bar \x7b\x7d".data⟩).toOption.getD ⟨[], 0⟩).body)
          ((parse ⟨"file:///a.c", 2, "class Bar \x7b\x7d".data⟩).toOption.getD ⟨[], 0⟩).body none := by
  obtain ⟨h1, _, h3⟩ := ensure_version_replaces_symbols
    (ensure [] ⟨"file:///a.c", 1, "class Foo \x7b\x7d".data⟩).2
    ⟨"file:///a.c", 2, "class Bar \x7b\x7d".data⟩
    ((parse ⟨"file:///a.c", 2, "class Bar \x7b\x7d".data⟩).toOption.getD ⟨[], 0⟩)
    ((parse ⟨"file:///a.c", 1, "class Foo \x7b\x7d".data⟩).toOption.getD ⟨[], 0⟩)
    [].asString.data (by decide) rfl (by decide) rfl
  exact ⟨h1, h3⟩

end EnScript
